import Mathlib

/-!
Verification of the concurrency-safe knowledge-graph storage engine.

This file shallowly embeds the core of the repository in Lean:

* `KG`   — the flat-file node store (`core/graph.py`): node files live in a
  single directory, a node named `n` is the file `n.md`, wikilinks are the
  `\x5b\x5b...\x5d\x5d` markers of the body.
* `GI`   — the in-memory link index (`core/graph_index.py`), a directed graph
  over node names maintained with networkx `DiGraph` semantics (adding an
  edge also adds both endpoints as vertices; `DiGraph` stores at most one
  edge per ordered pair) together with the lazily cached analytics.
* `Git`  — the merge policy layer (`core/git_ops.py`): `merge_worktree`
  around the external `git` primitives, with `git` itself modelled at
  file granularity (three-way merge of whole files; a file changed on both
  sides to different content is conflicting).
* `Lock` — the merge serializer of `core/server.py` (`ingest_event` runs the
  merge under `app.state.merge_lock`), modelled as a transition system of
  `n` concurrent sessions around one mutual-exclusion lock.

The filesystem as seen by the store is modelled as `FS`: `none` when the
store directory does not exist, otherwise the association list of
`(filename, content)` pairs in the directory.
-/

namespace KG

/-- The store directory: `none` when the directory does not exist, otherwise
the list of files in it, as `(filename, content)` pairs. -/
abbrev FS : Type := Option (List (String × String))

/-- Association-list lookup by string key (first binding wins), the model of
reading the file with a given name from a directory listing. -/
def alookup {β : Type} (k : String) : List (String × β) → Option β
  | [] => none
  | (k2, v) :: rest => if k2 = k then some v else alookup k rest

/-- Does the character list `hay` start with `pat`?  (Structural version of
a textual starts-with test, used so that all string scanning in this file
reduces in the kernel.) -/
def startsWithL : List Char → List Char → Bool
  | _, [] => true
  | [], _ :: _ => false
  | c :: cs, p :: ps => c = p && startsWithL cs ps

/-- Python's substring test `pat in hay` on character lists: true iff `pat`
occurs contiguously in `hay` (the empty pattern always occurs). -/
def containsL (hay pat : List Char) : Bool :=
  match hay with
  | [] => startsWithL [] pat
  | _ :: cs => startsWithL hay pat || containsL cs pat

/-- Python `s.startswith(pre)` on strings. -/
def strStarts (s pre : String) : Bool := startsWithL s.data pre.data

/-- Python `s.endswith(suf)` on strings. -/
def strEnds (s suf : String) : Bool := startsWithL s.data.reverse suf.data.reverse

/-- Python `pat in hay` (substring containment) on strings. -/
def strContains (hay pat : String) : Bool := containsL hay.data pat.data

/-- The characters of the final path component (the part after the last
`/`). -/
def baseNameL (l : List Char) : List Char :=
  l.foldl (fun acc c => if c = '/' then [] else acc ++ [c]) []

/-- Python `pathlib.PurePath(f).stem`: the final path component without its last
extension.  CPython takes the suffix to start at the last `.` of the final
component provided that dot is neither the first nor the last character. -/
def pathStem (f : String) : String :=
  let base := baseNameL f.data
  match base.reverse.findIdx? (fun c => c = '.') with
  | none => String.mk base
  | some k =>
      if k = 0 ∨ k = base.length - 1 then String.mk base
      else String.mk (base.take (base.length - 1 - k))

/-- Model of `read_node` (`core/graph.py:7`): content of the node's `.md` file, `none` if the
file (or the directory) does not exist. -/
def read_node (fs : FS) (name : String) : Option String :=
  match fs with
  | none => none
  | some files => alookup (name ++ ".md") files

/-- Model of `write_node` (`core/graph.py:15`): create the directory if needed and
create or overwrite `{name}.md`. -/
def write_node (fs : FS) (name : String) (content : String) : FS :=
  match fs with
  | none => some [(name ++ ".md", content)]
  | some files =>
      if (alookup (name ++ ".md") files).isSome then
        some (files.map (fun p => if p.1 = name ++ ".md" then (p.1, content) else p))
      else some (files ++ [(name ++ ".md", content)])

/-- Model of `update_node` (`core/graph.py:21`): overwrite the node's `.md` file only if it
already exists; returns `false` (and the unchanged store) otherwise. -/
def update_node (fs : FS) (name : String) (content : String) : Bool × FS :=
  match fs with
  | none => (false, fs)
  | some files =>
      if (alookup (name ++ ".md") files).isSome then
        (true, some (files.map (fun p => if p.1 = name ++ ".md" then (p.1, content) else p)))
      else (false, fs)

/-- Lexicographic at-most on character lists, by code point, as a boolean
(the order Python's `sorted` uses on strings). -/
def lexLeC : List Char → List Char → Bool
  | [], _ => true
  | _ :: _, [] => false
  | x :: xs, y :: ys => if x = y then lexLeC xs ys else decide (x < y)

/-- Lexicographic at-most on strings (agrees with `≤`, see `strLe_iff`). -/
def strLe (a b : String) : Bool := lexLeC a.data b.data

/-- The relation `strLe` as a sorting relation. -/
def StrLeR (a b : String) : Prop := strLe a b = true

instance strLeR_decidable : DecidableRel StrLeR := fun a b => by
  unfold StrLeR
  infer_instance

/-- Model of `list_nodes` (`core/graph.py:30`): `[]` when the directory does not
exist, otherwise the stems of the `*.md` files in ascending order
(`sorted(p.stem for p in graph_dir.glob("*.md"))`). -/
def list_nodes (fs : FS) : List String :=
  match fs with
  | none => []
  | some files =>
      List.insertionSort StrLeR
        (((files.map Prod.fst).filter (fun f => strEnds f ".md")).map pathStem)

/-- One pass of `re.finditer` for the pattern `\x5b\x5b([^\x5d]+)\x5d\x5d`
over a character list, fuelled for structural recursion (the fuel drops by
one per step while the scanned list drops by at least one, so any fuel of at
least the list's length gives the unbounded scan).  At each position the
scanner either matches two `[`, then a maximal nonempty run of characters
other than `]` (the group), then two `]` — emitting the group and resuming
after the match, as finditer does for non-overlapping matches — or advances
one character. -/
def scanFuel : Nat → List Char → List (List Char)
  | 0, _ => []
  | fuel + 1, l =>
      match l with
      | '[' :: '[' :: rest =>
          let name := rest.takeWhile (fun c => c != ']')
          let after := rest.dropWhile (fun c => c != ']')
          match name, after with
          | _ :: _, ']' :: ']' :: rest2 => name :: scanFuel fuel rest2
          | _, _ => scanFuel fuel ('[' :: rest)
      | _ :: cs => scanFuel fuel cs
      | [] => []

/-- All wikilink groups of `content`, in match order, duplicates included:
`[m.group(1) for m in WIKILINK_RE.finditer(content)]`. -/
def rawLinks (content : String) : List String :=
  (scanFuel content.data.length content.data).map String.mk

/-- The seen-set deduplication loop of `extract_wikilinks`
(`core/graph.py:37`): keep each name's first occurrence. -/
def dedupAux (seen : List String) : List String → List String
  | [] => []
  | x :: xs => if x ∈ seen then dedupAux seen xs else x :: dedupAux (x :: seen) xs

/-- Model of `extract_wikilinks` (`core/graph.py:37`): the wikilink groups of the
body, deduplicated, order-preserving by first occurrence. -/
def extract_wikilinks (content : String) : List String :=
  dedupAux [] (rawLinks content)

/-- Model of `get_links` (`core/graph.py:49`): outlinks are the extracted wikilinks
of the node's body (empty for a missing node or an empty body, which is
falsy in Python); backlinks scan every listed node other than `name` for the
literal substring `\x5b\x5b{name}\x5d\x5d` in its body. -/
def get_links (fs : FS) (name : String) : List String × List String :=
  let outlinks :=
    match read_node fs name with
    | some c => if c.isEmpty then [] else extract_wikilinks c
    | none => []
  let backlinks :=
    (list_nodes fs).filter (fun m =>
      decide (m ≠ name) &&
        (match read_node fs m with
         | some c => !c.isEmpty && strContains c ("[[" ++ name ++ "]]")
         | none => false))
  (outlinks, backlinks)

end KG

namespace GI

/-- The state of `GraphIndex` (`core/graph_index.py`): the networkx `DiGraph`
`self.G` as its vertex set and edge set, plus `self._analytics_cache`.  The
cache payload type is a parameter `A`; index mutations only ever clear the
cache, so they are generic in `A`, while `get_analytics` instantiates `A`
with `AnalyticsRes P C`. -/
structure GIState (A : Type) where
  nodes : Finset String
  edges : Finset (String × String)
  cache : Option A
deriving DecidableEq

/-- networkx `G.add_node(n)`. -/
def addNode {A : Type} (g : GIState A) (n : String) : GIState A :=
  { g with nodes := insert n g.nodes }

/-- networkx `G.add_edge(u, v)`: per the networkx contract, nodes `u` and
`v` are automatically added if they are not already in the graph; a
`DiGraph` keeps at most one edge per ordered pair. -/
def addEdge {A : Type} (g : GIState A) (u v : String) : GIState A :=
  { g with nodes := insert u (insert v g.nodes), edges := insert (u, v) g.edges }

/-- networkx `G.remove_node(n)`: removes the node and all edges incident to
it. -/
def removeNode {A : Type} (g : GIState A) (n : String) : GIState A :=
  { g with nodes := g.nodes.erase n,
           edges := g.edges.filter (fun e => e.1 ≠ n ∧ e.2 ≠ n) }

/-- The body of the `for name in list_nodes(...)` loop of `GraphIndex.build`
(`core/graph_index.py:21`): add the vertex, then an edge per extracted
wikilink of the body when the content is truthy. -/
def buildStep {A : Type} (fs : KG.FS) (g : GIState A) (name : String) : GIState A :=
  let g1 := addNode g name
  match KG.read_node fs name with
  | some c =>
      if c.isEmpty then g1
      else (KG.extract_wikilinks c).foldl (fun g2 t => addEdge g2 name t) g1
  | none => g1

/-- Model of `GraphIndex.build` (`core/graph_index.py:21`): clear the graph and the
analytics cache, then re-scan every listed node from disk. -/
def build {A : Type} (fs : KG.FS) (_g : GIState A) : GIState A :=
  (KG.list_nodes fs).foldl (buildStep fs) { nodes := ∅, edges := ∅, cache := none }

/-- Model of `GraphIndex.update_node` (`core/graph_index.py:32`): clear the analytics
cache, drop all out-edges of `name`, then either remove the vertex
(`content = none`, a deleted file) or re-add the vertex and its extracted
out-edges. -/
def update_node {A : Type} (name : String) (content : Option String) (g : GIState A) :
    GIState A :=
  let g1 : GIState A := { g with cache := none }
  let g2 : GIState A :=
    if name ∈ g1.nodes then
      { g1 with edges := g1.edges.filter (fun e => e.1 ≠ name) }
    else g1
  match content with
  | none => if name ∈ g2.nodes then removeNode g2 name else g2
  | some c => (KG.extract_wikilinks c).foldl (fun g3 t => addEdge g3 name t) (addNode g2 name)

/-- Is `f` a node-data file path (`f.startswith("nodes/") and
f.endswith(".md")`)? -/
def isNodeFile (f : String) : Bool := KG.strStarts f "nodes/" && KG.strEnds f ".md"

/-- Model of `GraphIndex.update_from_changes` (`core/graph_index.py:46`): for each
changed file under `nodes/` ending in `.md`, re-read the node named by the
file's stem from disk and apply `update_node`; all other paths are skipped
entirely. -/
def update_from_changes {A : Type} (fs : KG.FS) (changed : List String) (g : GIState A) :
    GIState A :=
  changed.foldl
    (fun g2 f =>
      if isNodeFile f then
        update_node (KG.pathStem f) (KG.read_node fs (KG.pathStem f)) g2
      else g2)
    g

/-- Model of `GraphIndex.get_outlinks` (`core/graph_index.py:55`): the successor set
of `name`, empty for an unknown vertex.  (The Python list is modelled as the
set of its elements.) -/
def get_outlinks {A : Type} (g : GIState A) (name : String) : Finset String :=
  if name ∈ g.nodes then (g.edges.filter (fun e => e.1 = name)).image Prod.snd else ∅

/-- Model of `GraphIndex.get_backlinks` (`core/graph_index.py:60`): the predecessor
set of `name`, empty for an unknown vertex. -/
def get_backlinks {A : Type} (g : GIState A) (name : String) : Finset String :=
  if name ∈ g.nodes then (g.edges.filter (fun e => e.2 = name)).image Prod.fst else ∅

/-- The `communities` dict of `get_analytics`, modelled extensionally: the
finite map from node name to community id. -/
abbrev CommMap := String → Option Nat

/-- Python dict assignment `d[k] = v`. -/
def upsertF (m : CommMap) (k : String) (v : Nat) : CommMap :=
  fun x => if x = k then some v else m x

/-- The `for i, community in enumerate(partition): for node in community:
communities[node] = i` loop of `get_analytics`, starting from the empty
dict. -/
def louvainAssign (parts : List (List String)) : CommMap :=
  parts.enum.foldl (fun acc p => p.2.foldl (fun a2 node => upsertF a2 node p.1) acc)
    (fun _ => none)

/-- The value cached by `get_analytics`: the PageRank and betweenness
results are produced by external networkx calls on the graph and are kept
abstract (types `P` and `C`); the community assignment dict is modelled as
a `CommMap`. -/
structure AnalyticsRes (P C : Type) where
  pagerank : P
  communities : CommMap
  centrality : C

/-- Model of `G.to_undirected()` at the level of the edge set: each directed edge
becomes the unordered pair of its endpoints, represented by its sorted
ordered pair. -/
def undirectedEdges (E : Finset (String × String)) : Finset (String × String) :=
  E.image (fun e => if KG.strLe e.1 e.2 then e else (e.2, e.1))

/-- Model of `GraphIndex.get_analytics` (`core/graph_index.py:65`): return the cache
if present; on an empty graph cache and return empty analytics; otherwise
compute PageRank (external call `prF`), communities — Louvain (external
call `louvainF`) on the undirected projection when it has at least one
edge, else every vertex of the directed graph is assigned community id `0`
— and betweenness centrality (external call `bcF`), and cache the
result.  `emptyPr`/`emptyCen` model the literal empty dicts of the
empty-graph branch. -/
def get_analytics {P C : Type}
    (prF : Finset String → Finset (String × String) → P)
    (louvainF : Finset String → Finset (String × String) → List (List String))
    (bcF : Finset String → Finset (String × String) → C)
    (emptyPr : P) (emptyCen : C)
    (g : GIState (AnalyticsRes P C)) : AnalyticsRes P C × GIState (AnalyticsRes P C) :=
  match g.cache with
  | some a => (a, g)
  | none =>
      if g.nodes = ∅ then
        let a : AnalyticsRes P C := ⟨emptyPr, fun _ => none, emptyCen⟩
        (a, { g with cache := some a })
      else
        let und := undirectedEdges g.edges
        let comms : CommMap :=
          if 0 < und.card then louvainAssign (louvainF g.nodes und)
          else fun n => if n ∈ g.nodes then some 0 else none
        let a : AnalyticsRes P C := ⟨prF g.nodes g.edges, comms, bcF g.nodes g.edges⟩
        (a, { g with cache := some a })

end GI

namespace Git

/-- Model of `MergeResult` (`core/git_ops.py:6`).  Revision identifiers are modelled
as natural numbers (the index of the trunk revision), so `commit_hash` is an
`Option Nat`. -/
structure MergeResult where
  success : Bool
  conflicts : List String
  commit_hash : Option Nat
deriving DecidableEq

/-- The trunk repository as `merge_worktree` sees it: the committed tree at
`HEAD`, the checked-out working tree, and the number of revisions on the
trunk's first-parent history.  (Files are an association list from
repo-relative path to content.) -/
structure Repo where
  head : List (String × String)
  work : List (String × String)
  nrev : Nat
deriving DecidableEq

/-- A session branch ready to merge, as produced by the ingest flow: the
trunk tree it was forked from (`base`) and its committed tree (one commit on
top of `base`). -/
structure Branch where
  base : List (String × String)
  files : List (String × String)
deriving DecidableEq

/-- All paths mentioned by the merge, each once (first occurrence order). -/
def allPaths (trunk : List (String × String)) (b : Branch) : List String :=
  KG.dedupAux [] ((b.base.map Prod.fst) ++ (trunk.map Prod.fst) ++ (b.files.map Prod.fst))

/-- Three-way merge of one file, the per-file specification of the external
`git merge` primitive at file granularity: `none` means the file conflicts;
`some v` is the merged value (`v = none` meaning the file is absent).  A
side that left the file at its base value loses to the other side; equal
changes agree; diverging changes conflict.  (In-file hunk merging of the
real tool is abstracted away: a file changed on both sides to different
content counts as conflicting.) -/
def mergeFile (bse t br : Option String) : Option (Option String) :=
  if br = bse then some t
  else if t = bse then some br
  else if t = br then some t
  else none

/-- The paths on which the merge conflicts. -/
def conflictPaths (trunk : List (String × String)) (b : Branch) : List String :=
  (allPaths trunk b).filter
    (fun p => mergeFile (KG.alookup p b.base) (KG.alookup p trunk) (KG.alookup p b.files) = none)

/-- The merged tree when no path conflicts. -/
def mergedFiles (trunk : List (String × String)) (b : Branch) : List (String × String) :=
  (allPaths trunk b).foldr
    (fun p acc =>
      match mergeFile (KG.alookup p b.base) (KG.alookup p trunk) (KG.alookup p b.files) with
      | some (some v) => (p, v) :: acc
      | _ => acc)
    []

/-- A conflicted file's working-tree content after a failed `git merge`
(conflict markers; the exact text is irrelevant, only that the working tree
is dirty until aborted). -/
def conflictMarker (t br : Option String) : String :=
  "<<<<<<< HEAD\n" ++ t.getD "" ++ "\n=======\n" ++ br.getD "" ++ "\n>>>>>>> branch\n"

/-- The trunk working tree left behind by a conflicted `git merge`:
cleanly merged values for non-conflicting paths, conflict markers for
conflicting ones. -/
def conflictedWork (trunk : List (String × String)) (b : Branch) : List (String × String) :=
  (allPaths trunk b).foldr
    (fun p acc =>
      match mergeFile (KG.alookup p b.base) (KG.alookup p trunk) (KG.alookup p b.files) with
      | some (some v) => (p, v) :: acc
      | some none => acc
      | none => (p, conflictMarker (KG.alookup p trunk) (KG.alookup p b.files)) :: acc)
    []

/-- The two-letter `git status --porcelain` code of an unmerged path: `UU`
both modified, `DU`/`UD` deleted on one side and modified on the other,
`AA` both added. -/
def statusLine (trunk : List (String × String)) (b : Branch) (p : String) : String :=
  if (KG.alookup p b.base).isSome then
    if (KG.alookup p trunk).isNone then "DU " ++ p
    else if (KG.alookup p b.files).isNone then "UD " ++ p
    else "UU " ++ p
  else "AA " ++ p

/-- Does the three-way merge of `p` produce a clean change to the trunk
value?  Such paths show up in `git status --porcelain` as staged changes. -/
def cleanChanged (trunk : List (String × String)) (b : Branch) (p : String) : Bool :=
  match mergeFile (KG.alookup p b.base) (KG.alookup p trunk) (KG.alookup p b.files) with
  | some v => decide (v ≠ KG.alookup p trunk)
  | none => false

/-- Model of `git status --porcelain` during a conflicted merge: one line per staged
clean change (code `M`), one line per unmerged path (codes `UU`, `DU`,
`UD`, `AA`). -/
def statusPorcelain (trunk : List (String × String)) (b : Branch) : List String :=
  ((allPaths trunk b).filter (cleanChanged trunk b)).map (fun p => "M  " ++ p)
    ++ (conflictPaths trunk b).map (statusLine trunk b)

/-- Model of `git merge --abort`: restore the trunk checkout to the pre-merge `HEAD`
state. -/
def mergeAbort (r : Repo) : Repo := { r with work := r.head }

/-- Model of `merge_worktree` (`core/git_ops.py:65`): run `git merge <branch>`; on
exit code 0 the trunk has advanced exactly one revision to the merged tree
and the result carries its revision id and no conflicts; otherwise parse
the `UU ` lines of `git status --porcelain` (`line[3:]` keeps the
repo-relative path), run `git merge --abort`, and report failure with a
null revision id. -/
def merge_worktree (r : Repo) (b : Branch) : MergeResult × Repo :=
  if (conflictPaths r.head b).isEmpty then
    let merged := mergedFiles r.head b
    (⟨true, [], some (r.nrev + 1)⟩, ⟨merged, merged, r.nrev + 1⟩)
  else
    let st := statusPorcelain r.head b
    let confl := (st.filter (fun l => KG.strStarts l "UU ")).map (fun l => String.mk (l.data.drop 3))
    (⟨false, confl, none⟩, mergeAbort { r with work := conflictedWork r.head b })

/-- The unmerged paths reported back by `merge_worktree`'s conflict parse:
the conflicting paths that are present in the merge base and on both sides
(status code `UU`). -/
def uuPaths (trunk : List (String × String)) (b : Branch) : List String :=
  (conflictPaths trunk b).filter
    (fun p => (KG.alookup p b.base).isSome
      && (KG.alookup p trunk).isSome && (KG.alookup p b.files).isSome)

end Git

namespace Lock

/-- Where one ingest session stands relative to the merge serializer of
`ingest_event` (`core/server.py:72`): sandboxed work not yet finished
(`idle`), blocked on `merge_lock` (`waiting`), holding the lock inside
`merge_worktree` (`merging`), merge attempt completed (`done`). -/
inductive Phase where
  | idle
  | waiting
  | merging
  | done
deriving DecidableEq

/-- The lock-relevant state of `n` concurrent `ingest_event` sessions
against one trunk: each session's phase, the owner of
`app.state.merge_lock`, the number of merge attempts started so far, and
the number of merges completed against trunk (each completed attempt
advances or leaves trunk, so waiters always proceed against the trunk state
left by all completed attempts). -/
structure LState (n : Nat) where
  phase : Fin n → Phase
  lock : Option (Fin n)
  attempts : Nat
  trunkDone : Nat

/-- The interleaving semantics of `async with merge_lock:
merge_worktree(...)` across sessions: a session arrives at the lock,
acquires it only when free (asyncio `Lock.acquire` blocks otherwise), and
releases it when its merge attempt completes. -/
inductive LStep {n : Nat} : LState n → LState n → Prop where
  | arrive (s : LState n) (i : Fin n) (h : s.phase i = Phase.idle) :
      LStep s ⟨Function.update s.phase i Phase.waiting, s.lock, s.attempts, s.trunkDone⟩
  | acquire (s : LState n) (i : Fin n) (h : s.phase i = Phase.waiting) (hl : s.lock = none) :
      LStep s ⟨Function.update s.phase i Phase.merging, some i, s.attempts + 1, s.trunkDone⟩
  | finish (s : LState n) (i : Fin n) (h : s.phase i = Phase.merging) (hl : s.lock = some i) :
      LStep s ⟨Function.update s.phase i Phase.done, none, s.attempts, s.trunkDone + 1⟩

/-- The initial state: no session has reached its merge step. -/
def init (n : Nat) : LState n := ⟨fun _ => Phase.idle, none, 0, 0⟩

/-- States the system can actually be in. -/
def Reachable {n : Nat} (s : LState n) : Prop := Relation.ReflTransGen LStep (init n) s

/-- A single-session run, step by step: the session arrives at the lock. -/
def lockS1 : LState 1 :=
  ⟨Function.update (init 1).phase 0 Phase.waiting, (init 1).lock, (init 1).attempts,
    (init 1).trunkDone⟩

/-- Next, the session acquires the free lock and starts its merge attempt. -/
def lockS2 : LState 1 :=
  ⟨Function.update lockS1.phase 0 Phase.merging, some 0, lockS1.attempts + 1, lockS1.trunkDone⟩

/-- Finally, the session completes the merge attempt and releases the lock. -/
def lockS3 : LState 1 :=
  ⟨Function.update lockS2.phase 0 Phase.done, none, lockS2.attempts, lockS2.trunkDone + 1⟩

end Lock

/-! Concrete instances used to evaluate the definitions above. -/

/-- A trivial stand-in for the external PageRank/betweenness calls. -/
def prU : Finset String → Finset (String × String) → Unit := fun _ _ => ()

/-- A trivial stand-in for the external Louvain call (never consulted in the
zero-edge cases under study). -/
def lvU : Finset String → Finset (String × String) → List (List String) := fun _ _ => []

/-- The union of all extracted link targets over the trunk's nodes. -/
def trunkLinkTargets (fs : KG.FS) : Finset String :=
  (KG.list_nodes fs).foldr
    (fun n acc =>
      (match KG.read_node fs n with
       | some c => (KG.extract_wikilinks c).toFinset
       | none => ∅) ∪ acc)
    ∅

/-- An empty index state with trivial cache payload. -/
def gUnit : GI.GIState Unit := ⟨∅, ∅, none⟩

/-- A store with one node `a` whose body links to the non-existent node
`b`. -/
def fsDangling : KG.FS := some [("a.md", "[[b]]")]

/-- A distinctive analytics value: recognizably not the result of any
recomputation on an empty graph. -/
def aStale : GI.AnalyticsRes Unit Unit :=
  ⟨(), fun n => if n = "ghost" then some 7 else none, ()⟩

/-- An index state over the empty graph whose cache still holds
`aStale`. -/
def gStale : GI.GIState (GI.AnalyticsRes Unit Unit) := ⟨∅, ∅, some aStale⟩

/-- An empty store. -/
def fsEmpty : KG.FS := some []

/-- A two-vertex, zero-edge index state with a cold cache. -/
def gTwo : GI.GIState (GI.AnalyticsRes Unit Unit) := ⟨insert "a" {"b"}, ∅, none⟩

/-- Trunk contents before the merge of claim C7's scenario: `x` links to
`y`. -/
def fsBefore : KG.FS := some [("x.md", "[[y]]"), ("y.md", "z")]

/-- Trunk contents after a merge that changed only `x`: its body no longer
links anywhere. -/
def fsAfter : KG.FS := some [("x.md", ""), ("y.md", "z")]

/-- The index built over `fsBefore`. -/
def gBefore : GI.GIState Unit := GI.build fsBefore gUnit

/-- A trunk whose only node file `nodes/x.md` was changed from `B` to `T`
since the branch below was forked. -/
def repoConfl : Git.Repo := ⟨[("nodes/x.md", "T")], [("nodes/x.md", "T")], 5⟩

/-- A branch forked at `B` that changed `nodes/x.md` to `Z`: merging it into
`repoConfl` conflicts on that file. -/
def branchConfl : Git.Branch := ⟨[("nodes/x.md", "B")], [("nodes/x.md", "Z")]⟩

/-- A trunk left unchanged since the branch below was forked. -/
def repoClean : Git.Repo := ⟨[("nodes/x.md", "B")], [("nodes/x.md", "B")], 3⟩

/-- A branch that changed `nodes/x.md` and added `nodes/new.md`: merging it
into `repoClean` succeeds. -/
def branchClean : Git.Branch :=
  ⟨[("nodes/x.md", "B")], [("nodes/x.md", "Z"), ("nodes/new.md", "N")]⟩

/-- A store holding nodes `a` and `b`, used to exercise the store update
contract. -/
def fsPair : KG.FS := some [("a.md", "old a"), ("b.md", "old b")]

/-! ## Order bridge: `strLe` agrees with `≤` on `String` -/

theorem lexLeC_eq_true_iff (a b : List Char) :
    KG.lexLeC a b = true ↔ ¬ List.Lex (· < ·) b a := by
  induction a generalizing b with
  | nil =>
    cases b with
    | nil => simp [KG.lexLeC]
    | cons y ys => simp [KG.lexLeC]
  | cons x xs ih =>
    cases b with
    | nil =>
      simp only [KG.lexLeC, Bool.false_eq_true, false_iff, not_not]
      exact List.Lex.nil
    | cons y ys =>
      by_cases hxy : x = y
      · subst hxy
        simp only [KG.lexLeC, eq_self_iff_true, if_true]
        rw [ih ys]
        constructor
        · exact fun h hlex => h (List.Lex.cons_iff.mp hlex)
        · exact fun h hlex => h (List.Lex.cons hlex)
      · simp only [KG.lexLeC, if_neg hxy, decide_eq_true_iff]
        constructor
        · intro hlt hlex
          cases hlex with
          | cons h2 => exact hxy rfl
          | rel h2 => exact absurd hlt (asymm h2)
        · intro h
          rcases lt_trichotomy x y with h1 | h1 | h1
          · exact h1
          · exact absurd h1 hxy
          · exact absurd (List.Lex.rel h1) h

theorem strLe_iff (a b : String) : KG.strLe a b = true ↔ a ≤ b := by
  rw [String.le_iff_toList_le]
  have h1 : a.toList ≤ b.toList ↔ ¬ b.toList < a.toList := not_lt.symm
  rw [h1]
  exact lexLeC_eq_true_iff a.data b.data

theorem strLeR_total : ∀ a b : String, KG.StrLeR a b ∨ KG.StrLeR b a := by
  intro a b
  unfold KG.StrLeR
  rw [strLe_iff, strLe_iff]
  exact le_total a b

theorem strLeR_trans : ∀ a b c : String, KG.StrLeR a b → KG.StrLeR b c → KG.StrLeR a c := by
  intro a b c h1 h2
  unfold KG.StrLeR at *
  rw [strLe_iff] at *
  exact le_trans h1 h2

theorem list_nodes_sorted_strLeR (fs : KG.FS) : (KG.list_nodes fs).Sorted KG.StrLeR := by
  cases fs with
  | none => exact List.sorted_nil
  | some files =>
    exact @List.sorted_insertionSort String KG.StrLeR KG.strLeR_decidable
      ⟨strLeR_total⟩ ⟨strLeR_trans⟩ _

theorem list_nodes_sorted (fs : KG.FS) : (KG.list_nodes fs).Sorted (· ≤ ·) := by
  refine (list_nodes_sorted_strLeR fs).imp ?_
  intro a b h
  exact (strLe_iff a b).mp h

/-! ## Deduplication: the seen-set loop of `extract_wikilinks` -/

theorem mem_dedupAux (seen l : List String) (x : String) :
    x ∈ KG.dedupAux seen l ↔ x ∈ l ∧ x ∉ seen := by
  induction l generalizing seen with
  | nil => simp [KG.dedupAux]
  | cons y ys ih =>
    by_cases hy : y ∈ seen
    · simp only [KG.dedupAux, if_pos hy, ih, List.mem_cons]
      constructor
      · rintro ⟨h1, h2⟩
        exact ⟨Or.inr h1, h2⟩
      · rintro ⟨h1 | h1, h2⟩
        · subst h1
          exact absurd hy h2
        · exact ⟨h1, h2⟩
    · simp only [KG.dedupAux, if_neg hy, List.mem_cons, ih]
      constructor
      · rintro (h1 | ⟨h1, h2⟩)
        · subst h1
          exact ⟨Or.inl rfl, hy⟩
        · simp only [List.mem_cons, not_or] at h2
          exact ⟨Or.inr h1, h2.2⟩
      · rintro ⟨h1 | h1, h2⟩
        · subst h1
          exact Or.inl rfl
        · by_cases hxy : x = y
          · exact Or.inl hxy
          · refine Or.inr ⟨h1, ?_⟩
            simp only [List.mem_cons, not_or]
            exact ⟨hxy, h2⟩

theorem dedupAux_nodup (seen l : List String) : (KG.dedupAux seen l).Nodup := by
  induction l generalizing seen with
  | nil => exact List.nodup_nil
  | cons y ys ih =>
    by_cases hy : y ∈ seen
    · simpa only [KG.dedupAux, if_pos hy] using ih seen
    · simp only [KG.dedupAux, if_neg hy]
      refine List.Nodup.cons ?_ (ih (y :: seen))
      intro hmem
      exact ((mem_dedupAux (y :: seen) ys y).mp hmem).2 (List.mem_cons_self y seen)

theorem dedupAux_pairwise_indexOf (l : List String) :
    ∀ seen, (KG.dedupAux seen l).Pairwise (fun a b => l.indexOf a < l.indexOf b) := by
  induction l with
  | nil => intro seen; exact List.Pairwise.nil
  | cons y ys ih =>
    intro seen
    by_cases hy : y ∈ seen
    · simp only [KG.dedupAux, if_pos hy]
      refine (ih seen).imp_of_mem ?_
      intro a b ha hb hab
      have ha2 := (mem_dedupAux seen ys a).mp ha
      have hb2 := (mem_dedupAux seen ys b).mp hb
      have hay : y ≠ a := fun h => ha2.2 (h ▸ hy)
      have hby : y ≠ b := fun h => hb2.2 (h ▸ hy)
      rw [List.indexOf_cons_ne ys hay, List.indexOf_cons_ne ys hby]
      exact Nat.succ_lt_succ hab
    · simp only [KG.dedupAux, if_neg hy]
      refine List.Pairwise.cons ?_ ?_
      · intro b hb
        have hb2 := (mem_dedupAux (y :: seen) ys b).mp hb
        have hby : y ≠ b := by
          intro h
          exact hb2.2 (h ▸ List.mem_cons_self y seen)
        rw [List.indexOf_cons_self, List.indexOf_cons_ne ys hby]
        exact Nat.succ_pos _
      · refine (ih (y :: seen)).imp_of_mem ?_
        intro a b ha hb hab
        have ha2 := (mem_dedupAux (y :: seen) ys a).mp ha
        have hb2 := (mem_dedupAux (y :: seen) ys b).mp hb
        have hay : y ≠ a := fun h => ha2.2 (h ▸ List.mem_cons_self y seen)
        have hby : y ≠ b := fun h => hb2.2 (h ▸ List.mem_cons_self y seen)
        rw [List.indexOf_cons_ne ys hay, List.indexOf_cons_ne ys hby]
        exact Nat.succ_lt_succ hab

/-- C6: for any body text, `extract_wikilinks` returns the wikilink markers'
names without duplicates — exactly one entry per distinct raw marker name,
matched case-sensitively (names are compared by string equality) — and in
first-occurrence order: entries are ordered by the position of their first
occurrence in the raw match list. -/
theorem extract_wikilinks_unique_first_occurrence (content : String) :
    (KG.extract_wikilinks content).Nodup
    ∧ (∀ name, name ∈ KG.extract_wikilinks content ↔ name ∈ KG.rawLinks content)
    ∧ (KG.extract_wikilinks content).length = (KG.rawLinks content).toFinset.card
    ∧ (KG.extract_wikilinks content).Pairwise
        (fun a b => (KG.rawLinks content).indexOf a < (KG.rawLinks content).indexOf b) := by
  have hnd : (KG.extract_wikilinks content).Nodup := dedupAux_nodup [] (KG.rawLinks content)
  have hmem : ∀ name, name ∈ KG.extract_wikilinks content ↔ name ∈ KG.rawLinks content := by
    intro name
    rw [KG.extract_wikilinks, mem_dedupAux]
    simp
  refine ⟨hnd, hmem, ?_, dedupAux_pairwise_indexOf (KG.rawLinks content) []⟩
  have hfs : (KG.extract_wikilinks content).toFinset = (KG.rawLinks content).toFinset := by
    ext name
    simp only [List.mem_toFinset]
    exact hmem name
  rw [← hfs]
  exact (List.toFinset_card_of_nodup hnd).symm

/-- C10: `list_nodes` returns the empty list when the store directory does
not exist, and otherwise the stems of the directory's `.md` files in
ascending lexicographic order. -/
theorem list_nodes_sorted_stems :
    KG.list_nodes none = []
    ∧ (∀ fs : KG.FS, (KG.list_nodes fs).Sorted (· ≤ ·))
    ∧ (∀ files, (KG.list_nodes (some files)).Perm
        (((files.map Prod.fst).filter (fun f => KG.strEnds f ".md")).map KG.pathStem)) := by
  refine ⟨rfl, list_nodes_sorted, ?_⟩
  intro files
  exact List.perm_insertionSort KG.StrLeR _

/-! ## The store update contract -/

theorem alookup_replace (l : List (String × String)) (k c : String)
    (h : (KG.alookup k l).isSome) :
    KG.alookup k (l.map (fun p => if p.1 = k then (p.1, c) else p)) = some c := by
  induction l with
  | nil => simp [KG.alookup] at h
  | cons hd tl ih =>
    obtain ⟨k2, v⟩ := hd
    simp only [List.map_cons]
    by_cases hk : k2 = k
    · subst hk
      have hrep : (if (k2, v).1 = k2 then ((k2, v).1, c) else (k2, v)) = (k2, c) := by
        simp
      rw [hrep]
      simp [KG.alookup]
    · have hrep : (if (k2, v).1 = k then ((k2, v).1, c) else (k2, v)) = (k2, v) := by
        simp [hk]
      rw [hrep]
      simp only [KG.alookup, if_neg hk] at h ⊢
      exact ih h

/-- C8: `update_node` on a missing node returns `false` and leaves the store
untouched (it never creates the node); on an existing node it returns `true`
and afterwards the node's stored body is exactly the supplied content (a
full replacement). -/
theorem update_node_full_replacement (fs : KG.FS) (name content : String) :
    (KG.read_node fs name = none → KG.update_node fs name content = (false, fs))
    ∧ (KG.read_node fs name ≠ none →
        (KG.update_node fs name content).1 = true
        ∧ KG.read_node (KG.update_node fs name content).2 name = some content) := by
  cases fs with
  | none => exact ⟨fun _ => rfl, fun h => absurd rfl h⟩
  | some files =>
    constructor
    · intro h
      have hs : (KG.alookup (name ++ ".md") files).isSome = false := by
        simp only [KG.read_node] at h
        simp [h]
      simp [KG.update_node, hs]
    · intro h
      have hs : (KG.alookup (name ++ ".md") files).isSome = true := by
        simp only [KG.read_node] at h
        simpa [Option.isSome_iff_ne_none] using h
      constructor
      · simp [KG.update_node, hs]
      · simp only [KG.update_node, hs, if_true, KG.read_node]
        exact alookup_replace files (name ++ ".md") content hs

/-- Witness for C8: both branches of the contract at concrete inputs. -/
theorem update_node_full_replacement_witness :
    KG.update_node fsPair "c" "new" = (false, fsPair)
    ∧ (KG.update_node fsPair "a" "new").1 = true
    ∧ KG.read_node (KG.update_node fsPair "a" "new").2 "a" = some "new" :=
  ⟨(update_node_full_replacement fsPair "c" "new").1 (by decide),
   ((update_node_full_replacement fsPair "a" "new").2 (by decide)).1,
   ((update_node_full_replacement fsPair "a" "new").2 (by decide)).2⟩

/-! ## Backlinks: raw substring scan -/

theorem strContains_empty_left (pat : String) (h : pat.data ≠ []) :
    KG.strContains "" pat = false := by
  unfold KG.strContains KG.containsL
  match hp : pat.data with
  | [] => exact absurd hp h
  | c :: cs => rfl

theorem bracket_pattern_data (name : String) :
    ("[[" ++ name ++ "]]").data = '[' :: '[' :: (name.data ++ [']', ']']) := by
  simp [String.data_append]

/-- C9: the backlinks component of `get_links(n)` is exactly the list of
node names other than `n`, in ascending lexicographic order, whose stored
body contains the literal substring `\x5b\x5bn\x5d\x5d`; the test is raw
substring containment, not wikilink parsing, so it can disagree with
`extract_wikilinks` (witnessed by a body `\x5b\x5b\x5bq\x5d\x5d\x5d`, which
contains the substring for node `q` although `q` is not among its extracted
links). -/
theorem get_links_backlinks_raw_substring (fs : KG.FS) (name : String) :
    ((KG.get_links fs name).2.Sorted (· ≤ ·))
    ∧ (∀ m, m ∈ (KG.get_links fs name).2 ↔
        m ∈ KG.list_nodes fs ∧ m ≠ name
          ∧ ∃ c, KG.read_node fs m = some c
              ∧ KG.strContains c ("[[" ++ name ++ "]]") = true)
    ∧ KG.strContains "[[[q]]]" "[[q]]" = true
    ∧ "q" ∉ KG.extract_wikilinks "[[[q]]]" := by
  refine ⟨?_, ?_, by decide, by decide⟩
  · exact (list_nodes_sorted fs).filter _
  · intro m
    simp only [KG.get_links, List.mem_filter, Bool.and_eq_true, decide_eq_true_iff]
    constructor
    · rintro ⟨hmem, hne, hcond⟩
      refine ⟨hmem, hne, ?_⟩
      cases hread : KG.read_node fs m with
      | none => rw [hread] at hcond; exact absurd hcond (by simp)
      | some c =>
        rw [hread] at hcond
        simp only [Bool.and_eq_true] at hcond
        exact ⟨c, rfl, hcond.2⟩
    · rintro ⟨hmem, hne, c, hread, hcont⟩
      refine ⟨hmem, hne, ?_⟩
      rw [hread]
      simp only [Bool.and_eq_true]
      refine ⟨?_, hcont⟩
      by_cases hc : c.isEmpty
      · exfalso
        have hcd : c = "" := by
          rwa [String.isEmpty_iff] at hc
        rw [hcd] at hcont
        rw [strContains_empty_left ("[[" ++ name ++ "]]") (by rw [bracket_pattern_data]; simp)]
          at hcont
        exact absurd hcont (by simp)
      · simp [hc]

/-! ## Graph index: cache and edge bookkeeping -/

theorem foldl_addEdge_cache {A : Type} (l : List String) (n : String) :
    ∀ g : GI.GIState A, (l.foldl (fun g2 t => GI.addEdge g2 n t) g).cache = g.cache := by
  induction l with
  | nil => intro g; rfl
  | cons t ts ih => intro g; exact ih (GI.addEdge g n t)

theorem foldl_addEdge_nodes {A : Type} (l : List String) (n : String) :
    ∀ g : GI.GIState A, n ∈ g.nodes →
      (l.foldl (fun g2 t => GI.addEdge g2 n t) g).nodes = g.nodes ∪ l.toFinset := by
  induction l with
  | nil =>
    intro g _
    simp
  | cons t ts ih =>
    intro g hn
    have hstep : (GI.addEdge g n t).nodes = insert t g.nodes := by
      simp only [GI.addEdge]
      exact Finset.insert_eq_self.mpr (Finset.mem_insert_of_mem hn)
    have hn2 : n ∈ (GI.addEdge g n t).nodes := by
      simp only [GI.addEdge]
      exact Finset.mem_insert_self n _
    rw [List.foldl_cons, ih (GI.addEdge g n t) hn2, hstep]
    ext z
    simp only [Finset.mem_union, Finset.mem_insert, List.toFinset_cons, List.mem_toFinset]
    tauto

theorem foldl_addEdge_edges {A : Type} (l : List String) (n : String) :
    ∀ g : GI.GIState A,
      (l.foldl (fun g2 t => GI.addEdge g2 n t) g).edges
        = g.edges ∪ (l.map (fun t => (n, t))).toFinset := by
  induction l with
  | nil =>
    intro g
    simp
  | cons t ts ih =>
    intro g
    rw [List.foldl_cons, ih (GI.addEdge g n t)]
    simp only [GI.addEdge]
    ext e
    simp only [Finset.mem_union, Finset.mem_insert, List.map_cons, List.toFinset_cons,
      List.mem_toFinset]
    tauto

theorem update_node_cache {A : Type} (x : String) (c : Option String) (g : GI.GIState A) :
    (GI.update_node x c g).cache = none := by
  by_cases h1 : x ∈ g.nodes
  · cases c with
    | none => simp [GI.update_node, h1, GI.removeNode]
    | some cnt => simp [GI.update_node, h1, foldl_addEdge_cache, GI.addNode]
  · cases c with
    | none => simp [GI.update_node, h1]
    | some cnt => simp [GI.update_node, h1, foldl_addEdge_cache, GI.addNode]

theorem update_node_some_nodes {A : Type} (x c : String) (g : GI.GIState A) :
    (GI.update_node x (some c) g).nodes
      = insert x g.nodes ∪ (KG.extract_wikilinks c).toFinset := by
  simp only [GI.update_node]
  have hmem : ∀ g2 : GI.GIState A, x ∈ (GI.addNode g2 x).nodes := by
    intro g2
    exact Finset.mem_insert_self x _
  rw [foldl_addEdge_nodes _ _ _ (hmem _)]
  by_cases h1 : x ∈ g.nodes <;> simp [GI.addNode, h1]

theorem update_node_some_edges {A : Type} (x c : String) (g : GI.GIState A)
    (hinv : ∀ e ∈ g.edges, e.1 ∈ g.nodes) :
    (GI.update_node x (some c) g).edges
      = g.edges.filter (fun e => e.1 ≠ x)
          ∪ ((KG.extract_wikilinks c).map (fun t => (x, t))).toFinset := by
  simp only [GI.update_node]
  rw [foldl_addEdge_edges]
  by_cases h1 : x ∈ g.nodes
  · simp [GI.addNode, h1]
  · have hfix : g.edges.filter (fun e => e.1 ≠ x) = g.edges := by
      refine Finset.filter_true_of_mem ?_
      intro e he hx
      exact h1 (hx ▸ hinv e he)
    simp [GI.addNode, h1, hfix]

theorem buildStep_cache {A : Type} (fs : KG.FS) (g : GI.GIState A) (n : String) :
    (GI.buildStep fs g n).cache = g.cache := by
  simp only [GI.buildStep]
  cases KG.read_node fs n with
  | none => rfl
  | some c =>
    by_cases hc : c.isEmpty
    · simp [hc, GI.addNode]
    · simp [hc, foldl_addEdge_cache, GI.addNode]

theorem foldl_buildStep_cache {A : Type} (fs : KG.FS) (names : List String) :
    ∀ g : GI.GIState A, (names.foldl (GI.buildStep fs) g).cache = g.cache := by
  induction names with
  | nil => intro g; rfl
  | cons n ns ih => intro g; rw [List.foldl_cons, ih, buildStep_cache]

theorem update_from_changes_cache_of_none {A : Type} (fs : KG.FS) (l : List String) :
    ∀ g : GI.GIState A, g.cache = none → (GI.update_from_changes fs l g).cache = none := by
  induction l with
  | nil => intro g h; exact h
  | cons f fl ih =>
    intro g h
    simp only [GI.update_from_changes, List.foldl_cons]
    by_cases hf : GI.isNodeFile f
    · simp only [hf, if_true]
      exact ih _ (update_node_cache _ _ _)
    · simp only [hf, if_false]
      exact ih _ h

/-- C3 (amended): `build` always invalidates the analytics cache, and
`update_from_changes` invalidates it exactly when its changed-file list
contains at least one path under `nodes/` ending in `.md` — even one whose
content leaves the edge set identical; a call whose list has no such path
(including the empty list) is a complete no-op and in particular leaves a
previously cached analytics object in place. -/
theorem cache_invalidation_amended {A : Type} (fs : KG.FS) (changed : List String)
    (g : GI.GIState A) :
    (GI.build fs g).cache = none
    ∧ ((∃ f ∈ changed, GI.isNodeFile f = true) →
        (GI.update_from_changes fs changed g).cache = none)
    ∧ ((∀ f ∈ changed, GI.isNodeFile f = false) →
        GI.update_from_changes fs changed g = g) := by
  refine ⟨?_, ?_, ?_⟩
  · exact foldl_buildStep_cache fs (KG.list_nodes fs) _
  · induction changed generalizing g with
    | nil =>
      intro hex
      exact absurd hex (by simp)
    | cons f fl ih =>
      intro hex
      simp only [GI.update_from_changes, List.foldl_cons]
      by_cases hf : GI.isNodeFile f
      · simp only [hf, if_true]
        exact update_from_changes_cache_of_none fs fl _ (update_node_cache _ _ _)
      · simp only [hf, if_false]
        rcases hex with ⟨f2, hmem, hf2⟩
        rcases List.mem_cons.mp hmem with h | h
        · exact absurd (h ▸ hf2) (by simpa using hf)
        · exact ih g ⟨f2, h, hf2⟩
  · intro hall
    induction changed with
    | nil => rfl
    | cons f fl ih =>
      have hf : GI.isNodeFile f = false := hall f (List.mem_cons_self f fl)
      simp only [GI.update_from_changes, List.foldl_cons, hf, Bool.false_eq_true, if_false]
      exact ih (fun f2 h2 => hall f2 (List.mem_cons_of_mem f h2))

/-- Counterexample to C3 as stated: `update_from_changes` with an empty
changed-file list (a no-op diff) does not invalidate the analytics cache —
the next `get_analytics` returns the previously cached object (`aStale`)
even though recomputation on the empty graph would assign no communities at
all. -/
theorem update_from_changes_noop_keeps_cache_cex :
    (GI.update_from_changes fsEmpty [] gStale).cache = some aStale
    ∧ (GI.get_analytics prU lvU prU () () (GI.update_from_changes fsEmpty [] gStale)).1.communities
        "ghost" = some 7
    ∧ (GI.get_analytics prU lvU prU () ()
        (⟨gStale.nodes, gStale.edges, none⟩ : GI.GIState (GI.AnalyticsRes Unit Unit))).1.communities
        "ghost" = none := by
  refine ⟨rfl, rfl, rfl⟩

/-- Witness for C3 (amended): a node-file path invalidates the stale cache;
a non-node-file path leaves the state untouched. -/
theorem cache_invalidation_amended_witness :
    (GI.update_from_changes fsEmpty ["nodes/a.md"] gStale).cache = none
    ∧ GI.update_from_changes fsEmpty ["readme.txt"] gStale = gStale :=
  ⟨(cache_invalidation_amended fsEmpty ["nodes/a.md"] gStale).2.1
      ⟨"nodes/a.md", by decide, by decide⟩,
   (cache_invalidation_amended fsEmpty ["readme.txt"] gStale).2.2 (by decide)⟩

/-! ## Vertex-set characterization of `build` -/

theorem buildStep_nodes {A : Type} (fs : KG.FS) (g : GI.GIState A) (n : String) :
    (GI.buildStep fs g n).nodes
      = insert n g.nodes
        ∪ (match KG.read_node fs n with
           | some c => (KG.extract_wikilinks c).toFinset
           | none => ∅) := by
  simp only [GI.buildStep]
  cases KG.read_node fs n with
  | none => simp [GI.addNode]
  | some c =>
    by_cases hc : c.isEmpty
    · have hextr : KG.extract_wikilinks c = [] := by
        rw [String.isEmpty_iff] at hc
        subst hc
        rfl
      simp [hc, hextr, GI.addNode]
    · simp only [hc, Bool.false_eq_true, if_false]
      rw [foldl_addEdge_nodes _ _ _ (Finset.mem_insert_self n g.nodes)]
      rfl

theorem foldl_buildStep_nodes {A : Type} (fs : KG.FS) (names : List String) :
    ∀ g : GI.GIState A,
      (names.foldl (GI.buildStep fs) g).nodes
        = g.nodes ∪ names.toFinset
            ∪ names.foldr
                (fun n acc =>
                  (match KG.read_node fs n with
                   | some c => (KG.extract_wikilinks c).toFinset
                   | none => ∅) ∪ acc)
                ∅ := by
  induction names with
  | nil =>
    intro g
    simp
  | cons n ns ih =>
    intro g
    rw [List.foldl_cons, ih (GI.buildStep fs g n), buildStep_nodes]
    ext z
    simp only [Finset.mem_union, Finset.mem_insert, List.toFinset_cons, List.mem_toFinset,
      List.foldr_cons]
    tauto

/-- C4 (amended): after `build`, the index's vertex set is the trunk's node
names together with every extracted link target — a link whose target node
does not exist still materializes the target as a vertex, because adding an
edge adds both endpoints; likewise `update_node` with fresh content adds the
node and all its link targets as vertices.  Indexed analytics therefore
iterate over dangling link targets as well as existing nodes. -/
theorem build_vertex_set_amended {A : Type} (fs : KG.FS) (g : GI.GIState A) :
    (GI.build fs g).nodes = (KG.list_nodes fs).toFinset ∪ trunkLinkTargets fs
    ∧ ∀ (g2 : GI.GIState A) (name c : String),
        (GI.update_node name (some c) g2).nodes
          = insert name g2.nodes ∪ (KG.extract_wikilinks c).toFinset := by
  constructor
  · rw [GI.build, foldl_buildStep_nodes, trunkLinkTargets]
    simp
  · intro g2 name c
    exact update_node_some_nodes name c g2

/-- Counterexample to C4 as stated: over a trunk whose only node is `a`
(whose body links to the non-existent `b`), `build` produces vertex set
`{a, b}`, not the trunk's node-name set `{a}` — the dangling target is
materialized. -/
theorem build_materializes_dangling_target_cex :
    "b" ∈ (GI.build fsDangling gUnit).nodes
    ∧ KG.list_nodes fsDangling = ["a"]
    ∧ (GI.build fsDangling gUnit).nodes ≠ (KG.list_nodes fsDangling).toFinset := by
  refine ⟨by decide, by decide, by decide⟩

/-! ## Communities on a zero-edge graph -/

/-- C5 (amended): when analytics are recomputed on a non-empty graph whose
undirected projection has zero edges, the community assignment maps every
vertex — and only the vertices — to the single community id `0`; vertices do
not receive distinct ids. -/
theorem zero_edge_communities_all_zero {P C2 : Type}
    (prF : Finset String → Finset (String × String) → P)
    (louvainF : Finset String → Finset (String × String) → List (List String))
    (bcF : Finset String → Finset (String × String) → C2)
    (emptyPr : P) (emptyCen : C2)
    (g : GI.GIState (GI.AnalyticsRes P C2))
    (h1 : g.cache = none) (h2 : g.nodes ≠ ∅) (h3 : g.edges = ∅) :
    ∀ n, (GI.get_analytics prF louvainF bcF emptyPr emptyCen g).1.communities n
      = if n ∈ g.nodes then some 0 else none := by
  intro n
  have hund : GI.undirectedEdges g.edges = ∅ := by
    rw [h3, GI.undirectedEdges, Finset.image_empty]
  simp only [GI.get_analytics, h1, if_neg h2, hund, Finset.card_empty, Nat.lt_irrefl,
    if_false]

/-- Witness for C5 (amended): on the two-vertex, zero-edge graph, vertex `a`
is assigned community id `0`. -/
theorem zero_edge_communities_all_zero_witness :
    (GI.get_analytics prU lvU prU () () gTwo).1.communities "a" = some 0 := by
  rw [zero_edge_communities_all_zero prU lvU prU () () gTwo rfl (by decide) rfl "a"]
  decide

/-- Counterexample to C5 as stated: on the two-vertex, zero-edge graph the
distinct vertices `a` and `b` receive the same community id `0`, not
distinct ids numbered by iteration order. -/
theorem zero_edge_distinct_ids_cex :
    (GI.get_analytics prU lvU prU () () gTwo).1.communities "a"
      = (GI.get_analytics prU lvU prU () () gTwo).1.communities "b"
    ∧ ("a" : String) ≠ "b"
    ∧ (GI.get_analytics prU lvU prU () () gTwo).1.communities "a" = some 0 := by
  refine ⟨by decide, by decide, by decide⟩

/-! ## Frame effect of re-indexing one changed node -/

theorem update_from_changes_single {A : Type} (fs : KG.FS) (f x c : String)
    (g : GI.GIState A) (hf : GI.isNodeFile f = true) (hstem : KG.pathStem f = x)
    (hread : KG.read_node fs x = some c) :
    GI.update_from_changes fs [f] g = GI.update_node x (some c) g := by
  simp only [GI.update_from_changes, List.foldl_cons, List.foldl_nil, hf, if_true, hstem,
    hread]

/-- C7 (amended): after re-indexing a single still-existing changed node
`x`, the outlink set of `x` equals the freshly parsed links of its current
body; the outgoing edge set of every other vertex is unchanged; and the
incoming edges of other vertices from sources other than `x` are unchanged.
(Only the incoming-from-`x` part of other vertices' edge sets may change —
necessarily so, since `x`'s outlinks are exactly the other vertices'
in-edges from `x`.)  The hypothesis on `g` is the index invariant that every
edge's source is a vertex, which holds for every state built by `build` and
maintained by `update_node`. -/
theorem index_consistency_amended {A : Type} (fs : KG.FS) (f x c : String)
    (g : GI.GIState A)
    (hf : GI.isNodeFile f = true) (hstem : KG.pathStem f = x)
    (hread : KG.read_node fs x = some c)
    (hinv : ∀ e ∈ g.edges, e.1 ∈ g.nodes) :
    GI.get_outlinks (GI.update_from_changes fs [f] g) x = (KG.extract_wikilinks c).toFinset
    ∧ (∀ y, y ≠ x →
        GI.get_outlinks (GI.update_from_changes fs [f] g) y = GI.get_outlinks g y)
    ∧ (∀ u y, u ≠ x →
        ((u, y) ∈ (GI.update_from_changes fs [f] g).edges ↔ (u, y) ∈ g.edges)) := by
  rw [update_from_changes_single fs f x c g hf hstem hread]
  have hnodes := update_node_some_nodes (A := A) x c g
  have hedges := update_node_some_edges (A := A) x c g hinv
  refine ⟨?_, ?_, ?_⟩
  · have hx : x ∈ (GI.update_node x (some c) g).nodes := by
      rw [hnodes]
      exact Finset.mem_union_left _ (Finset.mem_insert_self x g.nodes)
    rw [GI.get_outlinks, if_pos hx, hedges]
    ext t
    simp only [Finset.mem_image, Finset.mem_filter, Finset.mem_union, List.mem_toFinset,
      List.mem_map]
    constructor
    · rintro ⟨e, ⟨⟨he, hne⟩ | ⟨s, hs, hes⟩, hex⟩, het⟩
      · exact absurd hex hne
      · subst hes
        simp only at hex het
        subst het
        exact hs
    · intro ht
      exact ⟨(x, t), ⟨Or.inr ⟨t, ht, rfl⟩, rfl⟩, rfl⟩
  · intro y hyx
    have hfil : (GI.update_node x (some c) g).edges.filter (fun e => e.1 = y)
        = g.edges.filter (fun e => e.1 = y) := by
      rw [hedges]
      ext e
      simp only [Finset.mem_filter, Finset.mem_union, List.mem_toFinset, List.mem_map]
      constructor
      · rintro ⟨⟨he, hne⟩ | ⟨s, hs, hes⟩, hey⟩
        · exact ⟨he, hey⟩
        · subst hes
          simp only at hey
          exact absurd hey.symm hyx
      · rintro ⟨he, hey⟩
        refine ⟨Or.inl ⟨he, ?_⟩, hey⟩
        intro hex
        exact hyx (by rw [← hey, hex])
    by_cases hy : y ∈ g.nodes
    · have hy2 : y ∈ (GI.update_node x (some c) g).nodes := by
        rw [hnodes]
        exact Finset.mem_union_left _ (Finset.mem_insert_of_mem hy)
      rw [GI.get_outlinks, GI.get_outlinks, if_pos hy, if_pos hy2, hfil]
    · have hempty : g.edges.filter (fun e => e.1 = y) = ∅ := by
        refine Finset.filter_eq_empty_iff.mpr ?_
        intro e he hey
        exact hy (hey ▸ hinv e he)
      rw [GI.get_outlinks, GI.get_outlinks, if_neg hy]
      by_cases hy2 : y ∈ (GI.update_node x (some c) g).nodes
      · rw [if_pos hy2, hfil, hempty, Finset.image_empty]
      · rw [if_neg hy2]
  · intro u y hux
    rw [hedges]
    simp only [Finset.mem_union, Finset.mem_filter, List.mem_toFinset, List.mem_map]
    constructor
    · rintro (⟨he, _⟩ | ⟨s, _, hes⟩)
      · exact he
      · exact absurd (congrArg Prod.fst hes).symm hux
    · intro he
      exact Or.inl ⟨he, hux⟩

/-- Counterexample to C7 as stated: starting from the index over a trunk
where `x` links to `y`, a merge that changed only `x` (emptying its body)
followed by `applyChangedFiles(["nodes/x.md"])` changes vertex `y`'s
incoming edge set from `{x}` to `∅` — another vertex's edge set did
change. -/
theorem update_from_changes_inedges_change_cex :
    GI.get_backlinks gBefore "y" = {"x"}
    ∧ GI.get_backlinks (GI.update_from_changes fsAfter ["nodes/x.md"] gBefore) "y" = ∅
    ∧ ("y" : String) ≠ "x" := by
  refine ⟨by decide, by decide, by decide⟩

/-- Witness for C7 (amended) at the concrete scenario: after re-indexing the
emptied node `x`, its outlink set is the parse of its new (empty) body. -/
theorem index_consistency_amended_witness :
    GI.get_outlinks (GI.update_from_changes fsAfter ["nodes/x.md"] gBefore) "x"
      = (KG.extract_wikilinks "").toFinset :=
  (index_consistency_amended fsAfter "nodes/x.md" "x" "" gBefore (by decide) (by decide)
    (by decide) (by decide)).1

/-! ## Merge result shape, conflict reporting and rollback -/

theorem startsWithL_append (a b : List Char) : KG.startsWithL (a ++ b) a = true := by
  induction a with
  | nil => simp [KG.startsWithL]
  | cons c cs ih => simp [KG.startsWithL, ih]

theorem strStarts_uu_self (p : String) : KG.strStarts ("UU " ++ p) "UU " = true := by
  unfold KG.strStarts
  rw [String.data_append]
  exact startsWithL_append "UU ".data p.data

theorem strStarts_du (p : String) : KG.strStarts ("DU " ++ p) "UU " = false := by
  unfold KG.strStarts
  rw [String.data_append]
  simp [KG.startsWithL]

theorem strStarts_ud (p : String) : KG.strStarts ("UD " ++ p) "UU " = false := by
  unfold KG.strStarts
  rw [String.data_append]
  simp [KG.startsWithL]

theorem strStarts_aa (p : String) : KG.strStarts ("AA " ++ p) "UU " = false := by
  unfold KG.strStarts
  rw [String.data_append]
  simp [KG.startsWithL]

theorem strStarts_m (p : String) : KG.strStarts ("M  " ++ p) "UU " = false := by
  unfold KG.strStarts
  rw [String.data_append]
  simp [KG.startsWithL]

theorem drop3_uu (p : String) : String.mk (("UU " ++ p).data.drop 3) = p := by
  rw [String.data_append]
  rfl

theorem m_lines_filtered (trunk : List (String × String)) (b : Git.Branch) (l : List String) :
    ((l.filter (Git.cleanChanged trunk b)).map (fun p => "M  " ++ p)).filter
        (fun s => KG.strStarts s "UU ") = [] := by
  induction l with
  | nil => rfl
  | cons p ps ih =>
    by_cases hp : Git.cleanChanged trunk b p
    · simp only [List.filter_cons, hp, if_true, List.map_cons, List.filter_cons, strStarts_m,
        Bool.false_eq_true, if_false]
      exact ih
    · simp only [List.filter_cons, hp, Bool.false_eq_true, if_false]
      exact ih

theorem uu_parse (trunk : List (String × String)) (b : Git.Branch) (l : List String) :
    ((l.map (Git.statusLine trunk b)).filter (fun s => KG.strStarts s "UU ")).map
        (fun s => String.mk (s.data.drop 3))
      = l.filter (fun p => (KG.alookup p b.base).isSome
          && ((KG.alookup p trunk).isSome && (KG.alookup p b.files).isSome)) := by
  induction l with
  | nil => rfl
  | cons p ps ih =>
    simp only [List.map_cons, List.filter_cons]
    by_cases h1 : (KG.alookup p b.base).isSome
    · by_cases h2 : (KG.alookup p trunk).isNone
      · have hline : Git.statusLine trunk b p = "DU " ++ p := by
          simp [Git.statusLine, h1, h2]
        have hsome : (KG.alookup p trunk).isSome = false := by
          simp only [Option.isNone_iff_eq_none] at h2
          simp [h2]
        simp only [hline, strStarts_du, Bool.false_eq_true, if_false, h1, hsome,
          Bool.false_and, Bool.and_false, Bool.true_and]
        exact ih
      · by_cases h3 : (KG.alookup p b.files).isNone
        · have hline : Git.statusLine trunk b p = "UD " ++ p := by
            simp [Git.statusLine, h1, h2, h3]
          have hsome : (KG.alookup p b.files).isSome = false := by
            simp only [Option.isNone_iff_eq_none] at h3
            simp [h3]
          simp only [hline, strStarts_ud, Bool.false_eq_true, if_false, h1, hsome,
            Bool.and_false, Bool.true_and]
          exact ih
        · have hline : Git.statusLine trunk b p = "UU " ++ p := by
            simp [Git.statusLine, h1, h2, h3]
          have hs2 : (KG.alookup p trunk).isSome = true := by
            simpa [Option.isSome_iff_ne_none, Option.isNone_iff_eq_none] using h2
          have hs3 : (KG.alookup p b.files).isSome = true := by
            simpa [Option.isSome_iff_ne_none, Option.isNone_iff_eq_none] using h3
          simp only [hline, strStarts_uu_self, if_true, List.map_cons, drop3_uu, h1, hs2,
            hs3, Bool.and_self, Bool.true_and, if_true]
          rw [ih]
    · have hline : Git.statusLine trunk b p = "AA " ++ p := by
        simp only [Option.isSome_iff_ne_none] at h1
        simp only [Option.ne_none_iff_isSome, Bool.not_eq_true] at h1
        simp [Git.statusLine, h1]
      have hsome : (KG.alookup p b.base).isSome = false := by
        simpa using h1
      simp only [hline, strStarts_aa, Bool.false_eq_true, if_false, hsome, Bool.false_and,
        if_false]
      exact ih

/-- C1 (amended): a merge attempt either succeeds — returning the new trunk
revision identifier, an empty conflict list, and a trunk advanced exactly
one revision with a clean checkout — or fails, returning a null revision
identifier together with the repo-relative paths of the files left
both-modified-unmerged (status `UU`; conflicts of other shapes, such as
both-added, are not listed, and entries are file paths like `nodes/x.md`,
not bare node names), with trunk rolled back to exactly its pre-merge
state.  The hypothesis is that the trunk checkout is clean before the
merge, which the ingest flow maintains. -/
theorem merge_worktree_atomic (r : Git.Repo) (b : Git.Branch) (hclean : r.work = r.head) :
    ((Git.merge_worktree r b).1.success = true
      ∧ (Git.merge_worktree r b).1.conflicts = []
      ∧ (Git.merge_worktree r b).1.commit_hash = some (r.nrev + 1)
      ∧ (Git.merge_worktree r b).2.nrev = r.nrev + 1
      ∧ (Git.merge_worktree r b).2.work = (Git.merge_worktree r b).2.head)
    ∨ ((Git.merge_worktree r b).1.success = false
      ∧ (Git.merge_worktree r b).1.commit_hash = none
      ∧ (Git.merge_worktree r b).1.conflicts = Git.uuPaths r.head b
      ∧ (Git.merge_worktree r b).2 = r) := by
  by_cases hconf : (Git.conflictPaths r.head b).isEmpty
  · left
    simp [Git.merge_worktree, hconf]
  · have hres : Git.merge_worktree r b
        = (⟨false,
            ((Git.statusPorcelain r.head b).filter (fun s => KG.strStarts s "UU ")).map
              (fun s => String.mk (s.data.drop 3)), none⟩,
           Git.mergeAbort { r with work := Git.conflictedWork r.head b }) := by
      simp [Git.merge_worktree, hconf]
    right
    rw [hres]
    refine ⟨rfl, rfl, ?_, ?_⟩
    · show ((Git.statusPorcelain r.head b).filter (fun s => KG.strStarts s "UU ")).map
          (fun s => String.mk (s.data.drop 3)) = Git.uuPaths r.head b
      rw [Git.statusPorcelain, List.filter_append, List.map_append, m_lines_filtered,
        uu_parse]
      simp only [List.map_nil, List.nil_append]
      rw [Git.uuPaths]
      congr 1
      funext p
      rw [Bool.and_assoc]
    · show Git.mergeAbort _ = r
      rw [Git.mergeAbort]
      obtain ⟨hd, wk, nr⟩ := r
      simp only at hclean
      subst hclean
      rfl

/-- Counterexample to C1 as stated: a conflict on node `x` is reported as
the file path `nodes/x.md`, not as the node name `x` — `merge_worktree`
returns `git status --porcelain` paths, while the conflicting node's name
is the path's stem. -/
theorem merge_conflicts_are_paths_cex :
    (Git.merge_worktree repoConfl branchConfl).1.success = false
    ∧ (Git.merge_worktree repoConfl branchConfl).1.conflicts = ["nodes/x.md"]
    ∧ Git.conflictPaths repoConfl.head branchConfl = ["nodes/x.md"]
    ∧ (Git.conflictPaths repoConfl.head branchConfl).map KG.pathStem = ["x"]
    ∧ (Git.merge_worktree repoConfl branchConfl).1.conflicts ≠ ["x"] := by
  refine ⟨by decide, by decide, by decide, by decide, by decide⟩

/-- Witness for C1 (amended): a clean merge succeeds, and a conflicted merge
leaves the trunk exactly as it was. -/
theorem merge_worktree_atomic_witness :
    (Git.merge_worktree repoClean branchClean).1.success = true
    ∧ (Git.merge_worktree repoConfl branchConfl).2 = repoConfl := by
  constructor
  · rcases merge_worktree_atomic repoClean branchClean rfl with h | h
    · exact h.1
    · exact absurd h.1 (by decide)
  · rcases merge_worktree_atomic repoConfl branchConfl rfl with h | h
    · exact absurd h.1 (by decide)
    · exact h.2.2.2

/-! ## The merge serializer -/

theorem filter_update_congr {n : Nat} (f : Fin n → Lock.Phase) (i : Fin n) (v : Lock.Phase)
    (p : Lock.Phase → Prop) [DecidablePred p] (h : p v ↔ p (f i)) :
    Finset.univ.filter (fun j => p (Function.update f i v j))
      = Finset.univ.filter (fun j => p (f j)) := by
  ext j
  simp only [Finset.mem_filter, Finset.mem_univ, true_and]
  by_cases hj : j = i
  · subst hj
    rw [Function.update_same]
    exact h
  · rw [Function.update_noteq hj]

theorem filter_update_flip {n : Nat} (f : Fin n → Lock.Phase) (i : Fin n) (v : Lock.Phase)
    (p : Lock.Phase → Prop) [DecidablePred p] (h1 : ¬ p (f i)) (h2 : p v) :
    (Finset.univ.filter (fun j => p (Function.update f i v j))).card
      = (Finset.univ.filter (fun j => p (f j))).card + 1 := by
  have hset : Finset.univ.filter (fun j => p (Function.update f i v j))
      = insert i (Finset.univ.filter (fun j => p (f j))) := by
    ext j
    simp only [Finset.mem_filter, Finset.mem_univ, true_and, Finset.mem_insert]
    by_cases hj : j = i
    · subst hj
      rw [Function.update_same]
      simp [h2]
    · rw [Function.update_noteq hj]
      constructor
      · exact fun hp => Or.inr hp
      · rintro (hji | hp)
        · exact absurd hji hj
        · exact hp
  rw [hset, Finset.card_insert_of_not_mem]
  simp only [Finset.mem_filter, Finset.mem_univ, true_and]
  exact h1

theorem linv_step {n : Nat} (s1 t : Lock.LState n) (hstep : Lock.LStep s1 t)
    (hiff : ∀ i, s1.phase i = Lock.Phase.merging ↔ s1.lock = some i)
    (hatt : s1.attempts = (Finset.univ.filter
        (fun i => s1.phase i = Lock.Phase.merging ∨ s1.phase i = Lock.Phase.done)).card)
    (htr : s1.trunkDone = (Finset.univ.filter (fun i => s1.phase i = Lock.Phase.done)).card) :
    (∀ i, t.phase i = Lock.Phase.merging ↔ t.lock = some i)
    ∧ t.attempts = (Finset.univ.filter
        (fun i => t.phase i = Lock.Phase.merging ∨ t.phase i = Lock.Phase.done)).card
    ∧ t.trunkDone = (Finset.univ.filter (fun i => t.phase i = Lock.Phase.done)).card := by
  cases hstep with
  | arrive i h =>
    refine ⟨?_, ?_, ?_⟩
    · intro j
      dsimp only
      by_cases hj : j = i
      · subst hj
        rw [Function.update_same]
        constructor
        · intro hw
          exact absurd hw (by simp)
        · intro hl
          exact absurd ((hiff j).mpr hl) (by simp [h])
      · rw [Function.update_noteq hj]
        exact hiff j
    · dsimp only
      rw [hatt]
      congr 1
      refine (filter_update_congr s1.phase i Lock.Phase.waiting (fun ph => ph = Lock.Phase.merging ∨ ph = Lock.Phase.done) ?_).symm
      simp [h]
    · dsimp only
      rw [htr]
      congr 1
      refine (filter_update_congr s1.phase i Lock.Phase.waiting (fun ph => ph = Lock.Phase.done) ?_).symm
      simp [h]
  | acquire i h hl =>
    refine ⟨?_, ?_, ?_⟩
    · intro j
      dsimp only
      by_cases hj : j = i
      · subst hj
        rw [Function.update_same]
        simp
      · rw [Function.update_noteq hj]
        constructor
        · intro hm
          rw [(hiff j).mp hm] at hl
          exact absurd hl (by simp)
        · intro hsome
          exact absurd (Option.some.inj hsome).symm hj
    · dsimp only
      rw [hatt]
      refine (filter_update_flip s1.phase i Lock.Phase.merging (fun ph => ph = Lock.Phase.merging ∨ ph = Lock.Phase.done) ?_ ?_).symm
      · simp [h]
      · simp
    · dsimp only
      rw [htr]
      congr 1
      refine (filter_update_congr s1.phase i Lock.Phase.merging (fun ph => ph = Lock.Phase.done) ?_).symm
      simp [h]
  | finish i h hl =>
    refine ⟨?_, ?_, ?_⟩
    · intro j
      dsimp only
      constructor
      · intro hm
        by_cases hj : j = i
        · subst hj
          rw [Function.update_same] at hm
          exact absurd hm (by simp)
        · rw [Function.update_noteq hj] at hm
          have h2 := (hiff j).mp hm
          rw [hl] at h2
          exact absurd (Option.some.inj h2) (fun hij => hj hij.symm)
      · intro hnone
        exact absurd hnone (by simp)
    · dsimp only
      rw [hatt]
      congr 1
      refine (filter_update_congr s1.phase i Lock.Phase.done (fun ph => ph = Lock.Phase.merging ∨ ph = Lock.Phase.done) ?_).symm
      simp [h]
    · dsimp only
      rw [htr]
      refine (filter_update_flip s1.phase i Lock.Phase.done (fun ph => ph = Lock.Phase.done) ?_ ?_).symm
      · simp [h]
      · simp

theorem reachable_inv {n : Nat} (s : Lock.LState n) (hs : Lock.Reachable s) :
    (∀ i, s.phase i = Lock.Phase.merging ↔ s.lock = some i)
    ∧ s.attempts = (Finset.univ.filter
        (fun i => s.phase i = Lock.Phase.merging ∨ s.phase i = Lock.Phase.done)).card
    ∧ s.trunkDone = (Finset.univ.filter (fun i => s.phase i = Lock.Phase.done)).card := by
  induction hs with
  | refl =>
    refine ⟨?_, ?_, ?_⟩
    · intro i
      simp [Lock.init]
    · simp [Lock.init]
    · simp [Lock.init]
  | tail _hab hstep ih =>
    exact linv_step _ _ hstep ih.1 ih.2.1 ih.2.2

/-- C2: in every reachable state of `n` sessions racing `ingest_event`'s
merge step, (i) at most one session is inside `merge_worktree` — mutual
exclusion, so merge attempts never overlap; (ii) when every session has
completed, exactly `n` merge attempts have started and (iii) exactly `n`
have completed against trunk, one per session; (iv) a session waiting on a
free lock can always take its step (blocking, not failing); and (v) the
trunk state always reflects exactly the completed merge attempts, so each
later attempt proceeds against the trunk left by the earlier ones. -/
theorem merge_serializer_exclusive {n : Nat} (s : Lock.LState n) (hs : Lock.Reachable s) :
    (∀ i j, s.phase i = Lock.Phase.merging → s.phase j = Lock.Phase.merging → i = j)
    ∧ ((∀ i, s.phase i = Lock.Phase.done) → s.attempts = n)
    ∧ ((∀ i, s.phase i = Lock.Phase.done) → s.trunkDone = n)
    ∧ (∀ i, s.phase i = Lock.Phase.waiting → s.lock = none →
        Lock.LStep s ⟨Function.update s.phase i Lock.Phase.merging, some i, s.attempts + 1,
          s.trunkDone⟩)
    ∧ s.trunkDone = (Finset.univ.filter (fun i => s.phase i = Lock.Phase.done)).card := by
  obtain ⟨hiff, hatt, htr⟩ := reachable_inv s hs
  refine ⟨?_, ?_, ?_, ?_, htr⟩
  · intro i j hi hj
    have h1 := (hiff i).mp hi
    have h2 := (hiff j).mp hj
    rw [h1] at h2
    exact Option.some.inj h2
  · intro hall
    rw [hatt]
    have huniv : Finset.univ.filter
        (fun i : Fin n => s.phase i = Lock.Phase.merging ∨ s.phase i = Lock.Phase.done)
        = Finset.univ := by
      ext j
      simp [hall j]
    rw [huniv, Finset.card_univ, Fintype.card_fin]
  · intro hall
    rw [htr]
    have huniv : Finset.univ.filter (fun i : Fin n => s.phase i = Lock.Phase.done)
        = Finset.univ := by
      ext j
      simp [hall j]
    rw [huniv, Finset.card_univ, Fintype.card_fin]
  · intro i hw hl
    exact Lock.LStep.acquire s i hw hl

theorem lockS3_reachable : Lock.Reachable Lock.lockS3 := by
  have h1 : Lock.LStep (Lock.init 1) Lock.lockS1 := Lock.LStep.arrive (Lock.init 1) 0 rfl
  have h2 : Lock.LStep Lock.lockS1 Lock.lockS2 := Lock.LStep.acquire Lock.lockS1 0 rfl rfl
  have h3 : Lock.LStep Lock.lockS2 Lock.lockS3 := Lock.LStep.finish Lock.lockS2 0 rfl rfl
  exact Relation.ReflTransGen.tail
    (Relation.ReflTransGen.tail (Relation.ReflTransGen.tail Relation.ReflTransGen.refl h1) h2)
    h3

/-- Witness for C2: a complete one-session run is reachable, and in its
final all-done state exactly one merge attempt started and exactly one
completed. -/
theorem merge_serializer_exclusive_witness :
    Lock.lockS3.attempts = 1 ∧ Lock.lockS3.trunkDone = 1 := by
  have h := merge_serializer_exclusive Lock.lockS3 lockS3_reachable
  exact ⟨h.2.1 (by decide), h.2.2.1 (by decide)⟩

/-! ## The edge-source invariant is maintained by the index

The hypothesis of `index_consistency_amended` — every edge's source is a
vertex — is established by `build` and preserved by `update_node` and
`update_from_changes`, so it holds in every state the index can be in. -/

theorem addEdge_inv {A : Type} (g : GI.GIState A) (u v : String)
    (h : ∀ e ∈ g.edges, e.1 ∈ g.nodes) :
    ∀ e ∈ (GI.addEdge g u v).edges, e.1 ∈ (GI.addEdge g u v).nodes := by
  intro e he
  simp only [GI.addEdge, Finset.mem_insert] at he ⊢
  rcases he with he | he
  · subst he
    exact Or.inl rfl
  · exact Or.inr (Or.inr (h e he))

theorem foldl_addEdge_inv {A : Type} (l : List String) (n : String) :
    ∀ g : GI.GIState A, (∀ e ∈ g.edges, e.1 ∈ g.nodes) →
      ∀ e ∈ (l.foldl (fun g2 t => GI.addEdge g2 n t) g).edges,
        e.1 ∈ (l.foldl (fun g2 t => GI.addEdge g2 n t) g).nodes := by
  induction l with
  | nil => intro g h; exact h
  | cons t ts ih =>
    intro g h
    exact ih (GI.addEdge g n t) (addEdge_inv g n t h)

theorem addNode_inv {A : Type} (g : GI.GIState A) (n : String)
    (h : ∀ e ∈ g.edges, e.1 ∈ g.nodes) :
    ∀ e ∈ (GI.addNode g n).edges, e.1 ∈ (GI.addNode g n).nodes := by
  intro e he
  exact Finset.mem_insert_of_mem (h e he)

theorem buildStep_inv {A : Type} (fs : KG.FS) (g : GI.GIState A) (n : String)
    (h : ∀ e ∈ g.edges, e.1 ∈ g.nodes) :
    ∀ e ∈ (GI.buildStep fs g n).edges, e.1 ∈ (GI.buildStep fs g n).nodes := by
  simp only [GI.buildStep]
  cases KG.read_node fs n with
  | none => exact addNode_inv g n h
  | some c =>
    by_cases hc : c.isEmpty
    · simp only [hc, if_true]
      exact addNode_inv g n h
    · simp only [hc, Bool.false_eq_true, if_false]
      exact foldl_addEdge_inv _ n (GI.addNode g n) (addNode_inv g n h)

theorem build_inv {A : Type} (fs : KG.FS) (g : GI.GIState A) :
    ∀ e ∈ (GI.build fs g).edges, e.1 ∈ (GI.build fs g).nodes := by
  have h0 : ∀ names : List String, ∀ g1 : GI.GIState A,
      (∀ e ∈ g1.edges, e.1 ∈ g1.nodes) →
      ∀ e ∈ (names.foldl (GI.buildStep fs) g1).edges,
        e.1 ∈ (names.foldl (GI.buildStep fs) g1).nodes := by
    intro names
    induction names with
    | nil => intro g1 h; exact h
    | cons n ns ih => intro g1 h; exact ih (GI.buildStep fs g1 n) (buildStep_inv fs g1 n h)
  rw [GI.build]
  refine h0 (KG.list_nodes fs) ⟨∅, ∅, none⟩ ?_
  intro e he
  exact absurd he (Finset.not_mem_empty e)

theorem removeNode_inv {A : Type} (g : GI.GIState A) (n : String)
    (h : ∀ e ∈ g.edges, e.1 ∈ g.nodes) :
    ∀ e ∈ (GI.removeNode g n).edges, e.1 ∈ (GI.removeNode g n).nodes := by
  intro e he
  simp only [GI.removeNode, Finset.mem_filter] at he
  simp only [GI.removeNode, Finset.mem_erase]
  exact ⟨he.2.1, h e he.1⟩

theorem update_node_inv {A : Type} (x : String) (c : Option String) (g : GI.GIState A)
    (h : ∀ e ∈ g.edges, e.1 ∈ g.nodes) :
    ∀ e ∈ (GI.update_node x c g).edges, e.1 ∈ (GI.update_node x c g).nodes := by
  simp only [GI.update_node]
  have h2 : ∀ g1 : GI.GIState A, (∀ e ∈ g1.edges, e.1 ∈ g1.nodes) →
      ∀ e ∈ (if x ∈ g1.nodes
          then { g1 with edges := g1.edges.filter (fun e => e.1 ≠ x) }
          else g1).edges,
        e.1 ∈ (if x ∈ g1.nodes
          then { g1 with edges := g1.edges.filter (fun e => e.1 ≠ x) }
          else g1).nodes := by
    intro g1 h1
    by_cases hx : x ∈ g1.nodes
    · simp only [hx, if_true]
      intro e he
      exact h1 e (Finset.mem_filter.mp he).1
    · simp only [hx, if_false]
      exact h1
  cases c with
  | none =>
    set g2 := (if x ∈ ({ g with cache := none } : GI.GIState A).nodes
        then { ({ g with cache := none } : GI.GIState A) with
               edges := ({ g with cache := none } : GI.GIState A).edges.filter
                 (fun e => e.1 ≠ x) }
        else ({ g with cache := none } : GI.GIState A)) with hg2
    have hinv2 : ∀ e ∈ g2.edges, e.1 ∈ g2.nodes := by
      rw [hg2]
      exact h2 { g with cache := none } h
    by_cases hx2 : x ∈ g2.nodes
    · simp only [hx2, if_true]
      exact removeNode_inv g2 x hinv2
    · simp only [hx2, if_false]
      exact hinv2
  | some cnt =>
    refine foldl_addEdge_inv _ x _ ?_
    refine addNode_inv _ x ?_
    exact h2 { g with cache := none } h

theorem update_from_changes_inv {A : Type} (fs : KG.FS) (l : List String) :
    ∀ g : GI.GIState A, (∀ e ∈ g.edges, e.1 ∈ g.nodes) →
      ∀ e ∈ (GI.update_from_changes fs l g).edges,
        e.1 ∈ (GI.update_from_changes fs l g).nodes := by
  induction l with
  | nil => intro g h; exact h
  | cons f fl ih =>
    intro g h
    simp only [GI.update_from_changes, List.foldl_cons]
    by_cases hf : GI.isNodeFile f
    · simp only [hf, if_true]
      exact ih _ (update_node_inv _ _ _ h)
    · simp only [hf, if_false]
      exact ih _ h
